import Mathlib

/-!
# Verification of the Minesweeper knowledge-based agent

A shallow embedding of `minesweeper.py` (the `Sentence` and `MinesweeperAI`
classes) and proofs about the specification's claims.

Cells are pairs of (unbounded) integers, matching Python's `int` coordinates.
A `Sentence` pairs a finite set of cells with an integer count.  The agent
state carries the board dimensions, the `moves_made` / `safes` / `mines`
sets and the ordered `knowledge` list of sentences.

The Python `while updated:` closure loop inside `add_knowledge` is embedded
as a single-pass function `passFn` (returning the next state and the
`updated` flag) together with its `n`-fold iteration `iterPass`; the loop's
termination is then the statement that some iterate reports `updated =
false`.  The executable `addKnowledge` runs a caller-supplied number of
passes; theorems about concrete runs always record that the fixpoint was
reached within that bound, so the result agrees with the unbounded loop.
-/

namespace Minesweeper

/-- A board cell, `(row, col)` as in the Python source. -/
abbrev Cell := Int × Int

/-- `Sentence(cells, count)`: a set of board cells and a count of how many of
them are mines.  Equality is structural, matching Python's `__eq__`. -/
structure Sentence where
  cells : Finset Cell
  count : Int
deriving DecidableEq

/-- `Sentence.known_mines`: all cells if `len(cells) == count != 0`. -/
def Sentence.known_mines (s : Sentence) : Finset Cell :=
  if (s.cells.card : Int) = s.count ∧ s.count ≠ 0 then s.cells else ∅

/-- `Sentence.known_safes`: all cells if `count == 0`. -/
def Sentence.known_safes (s : Sentence) : Finset Cell :=
  if s.count = 0 then s.cells else ∅

/-- `Sentence.mark_mine`: if the cell is present, remove it and decrement
the count; otherwise a no-op. -/
def Sentence.mark_mine (s : Sentence) (c : Cell) : Sentence :=
  if c ∈ s.cells then ⟨s.cells.erase c, s.count - 1⟩ else s

/-- `Sentence.mark_safe`: if the cell is present, remove it (count
unchanged); otherwise a no-op. -/
def Sentence.mark_safe (s : Sentence) (c : Cell) : Sentence :=
  if c ∈ s.cells then ⟨s.cells.erase c, s.count⟩ else s

/-- The persistent state of a `MinesweeperAI` object. -/
structure AIState where
  height : Int
  width : Int
  moves_made : Finset Cell
  safes : Finset Cell
  mines : Finset Cell
  knowledge : List Sentence
deriving DecidableEq

/-- `MinesweeperAI.__init__(height, width)`. -/
def initAI (h w : Int) : AIState :=
  ⟨h, w, ∅, ∅, ∅, []⟩

/-- `MinesweeperAI.mark_safe`: add the cell to `safes` and update every
sentence. -/
def AIState.mark_safe (ai : AIState) (c : Cell) : AIState :=
  { ai with safes := insert c ai.safes,
            knowledge := ai.knowledge.map (·.mark_safe c) }

/-- `MinesweeperAI.mark_mine`: add the cell to `mines` and update every
sentence. -/
def AIState.mark_mine (ai : AIState) (c : Cell) : AIState :=
  { ai with mines := insert c ai.mines,
            knowledge := ai.knowledge.map (·.mark_mine c) }

/-- The in-bounds neighbours of a cell (the 3×3 box around it, the cell
itself excluded, clipped to the board), as looped over in `add_knowledge`. -/
def neighborsOf (ai : AIState) (c : Cell) : Finset Cell :=
  (({c.1 - 1, c.1, c.1 + 1} : Finset Int) ×ˢ ({c.2 - 1, c.2, c.2 + 1} : Finset Int)).filter
    fun p => p ≠ c ∧ 0 ≤ p.1 ∧ p.1 < ai.height ∧ 0 ≤ p.2 ∧ p.2 < ai.width

/-- Steps 1–3 of `add_knowledge`: record the move, mark the cell safe,
compute the undetermined neighbours, adjust the count by the known mines
among the neighbours, and append the new sentence when the candidate set is
non-empty. -/
def obsPart (ai : AIState) (c : Cell) (count : Int) : AIState :=
  let ai1 := { ai with moves_made := insert c ai.moves_made }
  let ai2 := ai1.mark_safe c
  let nbrs := neighborsOf ai2 c
  let candidates := nbrs.filter fun p => p ∉ ai2.safes ∧ p ∉ ai2.mines
  let adjusted := count - ((nbrs.filter fun p => p ∈ ai2.mines).card : Int)
  if candidates = ∅ then ai2
  else { ai2 with knowledge := ai2.knowledge ++ [⟨candidates, adjusted⟩] }

/-- One `(sentence1, sentence2)` iteration of the subset-inference nested
loop: skip equal sentences, require `sentence1.cells` non-empty and a subset
of `sentence2.cells`, and stage the difference sentence when it is not
already in the knowledge base, not already staged, and has non-empty
cells. -/
def considerPair (kb : List Sentence) (s1 s2 : Sentence) (acc : List Sentence) :
    List Sentence :=
  if s1 ≠ s2 ∧ s1.cells ≠ ∅ ∧ s1.cells ⊆ s2.cells then
    if (⟨s2.cells \ s1.cells, s2.count - s1.count⟩ : Sentence) ∉ kb ∧
        (⟨s2.cells \ s1.cells, s2.count - s1.count⟩ : Sentence) ∉ acc ∧
        (⟨s2.cells \ s1.cells, s2.count - s1.count⟩ : Sentence).cells ≠ ∅ then
      acc ++ [⟨s2.cells \ s1.cells, s2.count - s1.count⟩]
    else acc
  else acc

/-- The inner `for sentence2 in self.knowledge` loop. -/
def inferInner (kb : List Sentence) (s1 : Sentence) :
    List Sentence → List Sentence → List Sentence
  | [], acc => acc
  | s2 :: rest, acc => inferInner kb s1 rest (considerPair kb s1 s2 acc)

/-- The outer `for sentence1 in self.knowledge` loop. -/
def inferOuter (kb : List Sentence) :
    List Sentence → List Sentence → List Sentence
  | [], acc => acc
  | s1 :: rest, acc => inferOuter kb rest (inferInner kb s1 kb acc)

/-- The full subset-inference sweep of one closure pass: the list
`new_sentences` built by the nested loops. -/
def inferStep (kb : List Sentence) : List Sentence :=
  inferOuter kb kb []

/-- The union of the `known_safes()` of every sentence: the `safes_to_add`
set collected at the start of a closure pass. -/
def staOf (kb : List Sentence) : Finset Cell :=
  kb.foldr (fun t acc => t.known_safes ∪ acc) ∅

/-- The union of the `known_mines()` of every sentence: the `mines_to_add`
set collected at the start of a closure pass. -/
def mtaOf (kb : List Sentence) : Finset Cell :=
  kb.foldr (fun t acc => t.known_mines ∪ acc) ∅

/-- The cells newly marked safe in a pass (`safes_to_add` minus the cells
already in `safes`; only those trigger `mark_safe`). -/
def nsOf (ai : AIState) : Finset Cell := staOf ai.knowledge \ ai.safes

/-- The cells newly marked as mines in a pass (`mines_to_add` minus the
cells already in `mines`; only those trigger `mark_mine`). -/
def nmOf (ai : AIState) : Finset Cell := mtaOf ai.knowledge \ ai.mines

/-- The aggregate effect on one sentence of `mark_safe` applied for every
cell of `ns`: those cells are removed, the count is unchanged. -/
def safeSweep (ns : Finset Cell) (t : Sentence) : Sentence :=
  ⟨t.cells \ ns, t.count⟩

/-- The aggregate effect on one sentence of `mark_mine` applied for every
cell of `nm`: those cells are removed and the count drops by one per cell
that was present. -/
def mineSweep (nm : Finset Cell) (t : Sentence) : Sentence :=
  ⟨t.cells \ nm, t.count - ((t.cells ∩ nm).card : Int)⟩

/-- The knowledge list after the marking phase of one closure pass (safes
marked first, then mines, as in the source). -/
def sweptKB (ai : AIState) : List Sentence :=
  (ai.knowledge.map (safeSweep (nsOf ai))).map (mineSweep (nmOf ai))

/-- One iteration of the `while updated:` closure loop in `add_knowledge`:
collect the known safes and mines of every sentence, mark the new ones
(safes first, then mines, as in the source), run the subset-inference sweep
on the resulting knowledge, and append the staged sentences.  Returns the
new state together with the `updated` flag. -/
def passFn (ai : AIState) : AIState × Bool :=
  let ns := nsOf ai
  let nm := nmOf ai
  let kb2 := sweptKB ai
  let staged := inferStep kb2
  let kb3 := if staged = [] then kb2 else kb2 ++ staged
  ({ ai with safes := ai.safes ∪ ns, mines := ai.mines ∪ nm, knowledge := kb3 },
   decide (ns ≠ (∅ : Finset Cell)) || decide (nm ≠ (∅ : Finset Cell)) ||
     decide (staged ≠ []))

/-- The state after one closure pass. -/
def pass1 (ai : AIState) : AIState := (passFn ai).1

/-- The `updated` flag reported by a closure pass from this state. -/
def updFlag (ai : AIState) : Bool := (passFn ai).2

/-- `n`-fold iteration of the closure pass. -/
def iterPass : Nat → AIState → AIState
  | 0, s => s
  | n + 1, s => iterPass n (pass1 s)

/-- `MinesweeperAI.add_knowledge`, running at most `fuel` closure passes
(the Python loop has no bound; theorems about concrete runs record that the
fixpoint is reached within `fuel`, making the bounded run agree with the
unbounded loop).  Ends with the clean-up filter dropping empty sentences. -/
def addKnowledge (fuel : Nat) (ai : AIState) (c : Cell) (count : Int) : AIState :=
  let s1 := iterPass fuel (obsPart ai c count)
  { s1 with knowledge := s1.knowledge.filter fun t => t.cells ≠ ∅ }

/-- The row-major order used to determinize Python's unspecified set
iteration order when a set of cells is listed. -/
def cellLe (a b : Cell) : Prop := a.1 < b.1 ∨ (a.1 = b.1 ∧ a.2 ≤ b.2)

instance : DecidableRel cellLe := fun a b => by unfold cellLe; infer_instance

instance : IsTrans Cell cellLe where
  trans a b c hab hbc := by
    rcases hab with h | ⟨h1, h2⟩ <;> rcases hbc with h' | ⟨h1', h2'⟩ <;>
      simp only [cellLe] <;> omega

instance : IsAntisymm Cell cellLe where
  antisymm a b hab hba := by
    rcases a with ⟨a1, a2⟩; rcases b with ⟨b1, b2⟩
    rcases hab with h | ⟨h1, h2⟩ <;> rcases hba with h' | ⟨h1', h2'⟩ <;>
      simp_all <;> omega

instance : IsTotal Cell cellLe where
  total a b := by unfold cellLe; omega

/-- A finite set of cells listed in row-major order. -/
def cellList (s : Finset Cell) : List Cell := s.sort cellLe

/-- `MinesweeperAI.make_safe_move`: return some safe cell not yet played, or
none.  Python iterates `self.safes` in unspecified order; the embedding
lists the set in row-major order.  The method writes no attribute, so the
returned state is the receiver. -/
def make_safe_move (ai : AIState) : Option Cell × AIState :=
  ((cellList ai.safes).find? (fun c => decide (c ∉ ai.moves_made)), ai)

/-- The set `{all board cells} \ moves_made \ mines` that
`make_random_move` samples from. -/
def randomChoices (ai : AIState) : Finset Cell :=
  ((Finset.Icc 0 (ai.height - 1)) ×ˢ (Finset.Icc 0 (ai.width - 1))
    \ ai.moves_made) \ ai.mines

/-- `MinesweeperAI.make_random_move`: `random.choice` over the remaining
cells, modelled by an arbitrary index `seed` into the listed choices; none
when no choice remains.  The method writes no attribute, so the returned
state is the receiver. -/
def make_random_move (ai : AIState) (seed : Nat) : Option Cell × AIState :=
  let choices := cellList (randomChoices ai)
  (if h : choices.length = 0 then none
   else some (choices.get ⟨seed % choices.length,
     Nat.mod_lt _ (Nat.pos_of_ne_zero h)⟩), ai)

/-! ## Basic lemmas about a closure pass -/

lemma pass1_moves (ai : AIState) : (pass1 ai).moves_made = ai.moves_made := rfl

lemma pass1_height (ai : AIState) : (pass1 ai).height = ai.height := rfl

lemma pass1_width (ai : AIState) : (pass1 ai).width = ai.width := rfl

lemma pass1_safes (ai : AIState) : (pass1 ai).safes = ai.safes ∪ nsOf ai := rfl

lemma pass1_mines (ai : AIState) : (pass1 ai).mines = ai.mines ∪ nmOf ai := rfl

lemma pass1_knowledge (ai : AIState) :
    (pass1 ai).knowledge =
      if inferStep (sweptKB ai) = [] then sweptKB ai
      else sweptKB ai ++ inferStep (sweptKB ai) := rfl

lemma updFlag_false_iff (ai : AIState) :
    updFlag ai = false ↔
      nsOf ai = ∅ ∧ nmOf ai = ∅ ∧ inferStep (sweptKB ai) = [] := by
  simp [updFlag, passFn, and_assoc]

lemma map_safeSweep_empty (l : List Sentence) : l.map (safeSweep ∅) = l := by
  induction l with
  | nil => rfl
  | cons t r ih => cases t; simp [safeSweep, ih]

lemma map_mineSweep_empty (l : List Sentence) : l.map (mineSweep ∅) = l := by
  induction l with
  | nil => rfl
  | cons t r ih => cases t; simp [mineSweep, ih]

lemma sweptKB_of_no_marks {ai : AIState} (h1 : nsOf ai = ∅) (h2 : nmOf ai = ∅) :
    sweptKB ai = ai.knowledge := by
  unfold sweptKB
  rw [h1, h2, map_safeSweep_empty, map_mineSweep_empty]

/-- A pass that reports `updated = false` leaves the state unchanged. -/
lemma pass_fix {ai : AIState} (h : updFlag ai = false) : pass1 ai = ai := by
  obtain ⟨h1, h2, h3⟩ := (updFlag_false_iff ai).mp h
  cases ai with
  | mk ht wd mv sf mn kb =>
    simp only [pass1, passFn]
    rw [show nsOf ⟨ht, wd, mv, sf, mn, kb⟩ = ∅ from h1,
        show nmOf ⟨ht, wd, mv, sf, mn, kb⟩ = ∅ from h2]
    simp only [AIState.mk.injEq, Finset.union_empty, true_and]
    rw [sweptKB_of_no_marks h1 h2] at h3 ⊢
    simp [h3]

lemma iterPass_succ (n : Nat) (s : AIState) :
    iterPass (n + 1) s = iterPass n (pass1 s) := rfl

lemma iterPass_fix {s : AIState} (h : updFlag s = false) (n : Nat) :
    iterPass n s = s := by
  induction n with
  | zero => rfl
  | succ n ih => rw [iterPass_succ, pass_fix h]; exact ih

/-! ## Characterization of the subset-inference sweep -/

/-- The conditions under which the pair `(s1, s2)` stages the sentence `a`
during the inference sweep over knowledge base `kb`. -/
def DiffAt (kb : List Sentence) (s1 s2 a : Sentence) : Prop :=
  s1 ≠ s2 ∧ s1.cells ≠ ∅ ∧ s1.cells ⊆ s2.cells ∧
    a = ⟨s2.cells \ s1.cells, s2.count - s1.count⟩ ∧ a ∉ kb ∧ a.cells ≠ ∅

lemma mem_considerPair {kb : List Sentence} {s1 s2 : Sentence}
    {acc : List Sentence} {a : Sentence} (h : a ∈ considerPair kb s1 s2 acc) :
    a ∈ acc ∨ DiffAt kb s1 s2 a := by
  unfold considerPair at h
  split at h
  case isTrue hcond =>
    split at h
    case isTrue hnew =>
      rcases List.mem_append.mp h with h' | h'
      · exact Or.inl h'
      · right
        have ha := List.mem_singleton.mp h'
        subst ha
        exact ⟨hcond.1, hcond.2.1, hcond.2.2, rfl, hnew.1, hnew.2.2⟩
    case isFalse => exact Or.inl h
  case isFalse => exact Or.inl h

lemma considerPair_mono {kb : List Sentence} {s1 s2 : Sentence}
    {acc : List Sentence} {a : Sentence} (h : a ∈ acc) :
    a ∈ considerPair kb s1 s2 acc := by
  unfold considerPair
  split
  · split
    · exact List.mem_append_left _ h
    · exact h
  · exact h

lemma inferInner_mono {kb : List Sentence} {s1 : Sentence} {a : Sentence} :
    ∀ (l acc : List Sentence), a ∈ acc → a ∈ inferInner kb s1 l acc := by
  intro l
  induction l with
  | nil => intro acc h; exact h
  | cons s2 rest ih => intro acc h; exact ih _ (considerPair_mono h)

lemma mem_inferInner {kb : List Sentence} {s1 : Sentence} {a : Sentence} :
    ∀ (l acc : List Sentence), a ∈ inferInner kb s1 l acc →
      a ∈ acc ∨ ∃ s2 ∈ l, DiffAt kb s1 s2 a := by
  intro l
  induction l with
  | nil => intro acc h; exact Or.inl h
  | cons s2 rest ih =>
    intro acc h
    rcases ih _ h with h' | ⟨s2', hs2', hd⟩
    · rcases mem_considerPair h' with h'' | hd
      · exact Or.inl h''
      · exact Or.inr ⟨s2, List.mem_cons_self _ _, hd⟩
    · exact Or.inr ⟨s2', List.mem_cons_of_mem _ hs2', hd⟩

lemma inferOuter_mono {kb : List Sentence} {a : Sentence} :
    ∀ (l acc : List Sentence), a ∈ acc → a ∈ inferOuter kb l acc := by
  intro l
  induction l with
  | nil => intro acc h; exact h
  | cons s1 rest ih => intro acc h; exact ih _ (inferInner_mono _ _ h)

lemma mem_inferOuter {kb : List Sentence} {a : Sentence} :
    ∀ (l acc : List Sentence), a ∈ inferOuter kb l acc →
      a ∈ acc ∨ ∃ s1 ∈ l, ∃ s2 ∈ kb, DiffAt kb s1 s2 a := by
  intro l
  induction l with
  | nil => intro acc h; exact Or.inl h
  | cons s1 rest ih =>
    intro acc h
    rcases ih _ h with h' | ⟨s1', hs1', hd⟩
    · rcases mem_inferInner _ _ h' with h'' | ⟨s2, hs2, hd⟩
      · exact Or.inl h''
      · exact Or.inr ⟨s1, List.mem_cons_self _ _, s2, hs2, hd⟩
    · exact Or.inr ⟨s1', List.mem_cons_of_mem _ hs1', hd⟩

/-- Every sentence staged by the inference sweep is the subset-difference of
two sentences of the knowledge base, is not already present, and has
non-empty cells. -/
lemma mem_inferStep {kb : List Sentence} {a : Sentence}
    (h : a ∈ inferStep kb) : ∃ s1 ∈ kb, ∃ s2 ∈ kb, DiffAt kb s1 s2 a := by
  rcases mem_inferOuter _ _ h with h' | h'
  · exact absurd h' (List.not_mem_nil a)
  · exact h'

lemma considerPair_hit {kb : List Sentence} {s1 s2 a : Sentence}
    (h : DiffAt kb s1 s2 a) (acc : List Sentence) :
    a ∈ considerPair kb s1 s2 acc := by
  obtain ⟨hne, hcne, hsub, heq, hnkb, hcells⟩ := h
  unfold considerPair
  rw [if_pos ⟨hne, hcne, hsub⟩]
  subst heq
  by_cases hacc : (⟨s2.cells \ s1.cells, s2.count - s1.count⟩ : Sentence) ∈ acc
  · split
    · exact List.mem_append_left _ hacc
    · exact hacc
  · rw [if_pos ⟨hnkb, hacc, hcells⟩]
    exact List.mem_append_right _ (List.mem_singleton_self _)

lemma inferInner_hit {kb : List Sentence} {s1 s2 a : Sentence}
    (h : DiffAt kb s1 s2 a) :
    ∀ (l acc : List Sentence), s2 ∈ l → a ∈ inferInner kb s1 l acc := by
  intro l
  induction l with
  | nil => intro acc h'; exact absurd h' (List.not_mem_nil s2)
  | cons s2' rest ih =>
    intro acc h'
    rcases List.mem_cons.mp h' with h'' | h''
    · subst h''
      exact inferInner_mono rest (considerPair kb s1 s2 acc)
        (considerPair_hit h acc)
    · exact ih _ h''

lemma inferOuter_hit {kb : List Sentence} {s1 s2 a : Sentence}
    (h : DiffAt kb s1 s2 a) (hs2 : s2 ∈ kb) :
    ∀ (l acc : List Sentence), s1 ∈ l → a ∈ inferOuter kb l acc := by
  intro l
  induction l with
  | nil => intro acc h'; exact absurd h' (List.not_mem_nil s1)
  | cons s1' rest ih =>
    intro acc h'
    rcases List.mem_cons.mp h' with h'' | h''
    · subst h''
      exact inferOuter_mono rest (inferInner kb s1 kb acc)
        (inferInner_hit h kb acc hs2)
    · exact ih _ h''

/-- Completeness of the inference sweep: for every applicable pair the
difference sentence is either already present or staged. -/
lemma inferStep_complete {kb : List Sentence} {s1 s2 : Sentence}
    (h1 : s1 ∈ kb) (h2 : s2 ∈ kb) (hne : s1 ≠ s2) (hcne : s1.cells ≠ ∅)
    (hsub : s1.cells ⊆ s2.cells)
    (hd : (⟨s2.cells \ s1.cells, s2.count - s1.count⟩ : Sentence).cells ≠ ∅) :
    (⟨s2.cells \ s1.cells, s2.count - s1.count⟩ : Sentence) ∈ kb ∨
      (⟨s2.cells \ s1.cells, s2.count - s1.count⟩ : Sentence) ∈ inferStep kb := by
  by_cases hkb : (⟨s2.cells \ s1.cells, s2.count - s1.count⟩ : Sentence) ∈ kb
  · exact Or.inl hkb
  · exact Or.inr (inferOuter_hit ⟨hne, hcne, hsub, rfl, hkb, hd⟩ h2 _ _ h1)

/-! ## The observation part of `add_knowledge` -/

/-- The candidate neighbour set of an observation: the in-bounds neighbours
that are neither known safe (after the observed cell itself was marked safe)
nor known mines. -/
def obsCandidates (ai : AIState) (c : Cell) : Finset Cell :=
  (neighborsOf ai c).filter fun p => p ∉ insert c ai.safes ∧ p ∉ ai.mines

/-- The observed count adjusted by the known mines among the neighbours. -/
def obsAdjusted (ai : AIState) (c : Cell) (k : Int) : Int :=
  k - (((neighborsOf ai c).filter fun p => p ∈ ai.mines).card : Int)

lemma obsPart_moves (ai : AIState) (c : Cell) (k : Int) :
    (obsPart ai c k).moves_made = insert c ai.moves_made := by
  simp only [obsPart, AIState.mark_safe]
  split <;> rfl

lemma obsPart_safes (ai : AIState) (c : Cell) (k : Int) :
    (obsPart ai c k).safes = insert c ai.safes := by
  simp only [obsPart, AIState.mark_safe]
  split <;> rfl

lemma obsPart_mines (ai : AIState) (c : Cell) (k : Int) :
    (obsPart ai c k).mines = ai.mines := by
  simp only [obsPart, AIState.mark_safe]
  split <;> rfl

lemma obsPart_knowledge (ai : AIState) (c : Cell) (k : Int) :
    (obsPart ai c k).knowledge =
      if obsCandidates ai c = ∅ then ai.knowledge.map (·.mark_safe c)
      else ai.knowledge.map (·.mark_safe c) ++
        [⟨obsCandidates ai c, obsAdjusted ai c k⟩] := by
  simp only [obsPart, obsCandidates, obsAdjusted, AIState.mark_safe, neighborsOf]
  split <;> rfl

/-! ## Monotone growth of the fact sets -/

lemma pass1_safes_mono (ai : AIState) : ai.safes ⊆ (pass1 ai).safes := by
  rw [pass1_safes]
  exact Finset.subset_union_left

lemma pass1_mines_mono (ai : AIState) : ai.mines ⊆ (pass1 ai).mines := by
  rw [pass1_mines]
  exact Finset.subset_union_left

lemma iterPass_safes_mono (n : Nat) :
    ∀ ai : AIState, ai.safes ⊆ (iterPass n ai).safes := by
  induction n with
  | zero => intro ai; exact subset_rfl
  | succ n ih =>
    intro ai
    exact (pass1_safes_mono ai).trans (ih (pass1 ai))

lemma iterPass_mines_mono (n : Nat) :
    ∀ ai : AIState, ai.mines ⊆ (iterPass n ai).mines := by
  induction n with
  | zero => intro ai; exact subset_rfl
  | succ n ih =>
    intro ai
    exact (pass1_mines_mono ai).trans (ih (pass1 ai))

lemma iterPass_moves (n : Nat) :
    ∀ ai : AIState, (iterPass n ai).moves_made = ai.moves_made := by
  induction n with
  | zero => intro ai; rfl
  | succ n ih => intro ai; rw [iterPass_succ, ih, pass1_moves]

lemma addKnowledge_moves (fuel : Nat) (ai : AIState) (c : Cell) (k : Int) :
    (addKnowledge fuel ai c k).moves_made = insert c ai.moves_made := by
  unfold addKnowledge
  rw [show ({ iterPass fuel (obsPart ai c k) with
        knowledge := (iterPass fuel (obsPart ai c k)).knowledge.filter
          fun t => t.cells ≠ ∅ } : AIState).moves_made =
      (iterPass fuel (obsPart ai c k)).moves_made from rfl,
    iterPass_moves, obsPart_moves]

lemma addKnowledge_safes_mono (fuel : Nat) (ai : AIState) (c : Cell) (k : Int) :
    insert c ai.safes ⊆ (addKnowledge fuel ai c k).safes := by
  unfold addKnowledge
  rw [show ({ iterPass fuel (obsPart ai c k) with
        knowledge := (iterPass fuel (obsPart ai c k)).knowledge.filter
          fun t => t.cells ≠ ∅ } : AIState).safes =
      (iterPass fuel (obsPart ai c k)).safes from rfl]
  rw [show insert c ai.safes = (obsPart ai c k).safes from
    (obsPart_safes ai c k).symm]
  exact iterPass_safes_mono fuel _

lemma addKnowledge_mines_mono (fuel : Nat) (ai : AIState) (c : Cell) (k : Int) :
    ai.mines ⊆ (addKnowledge fuel ai c k).mines := by
  unfold addKnowledge
  rw [show ({ iterPass fuel (obsPart ai c k) with
        knowledge := (iterPass fuel (obsPart ai c k)).knowledge.filter
          fun t => t.cells ≠ ∅ } : AIState).mines =
      (iterPass fuel (obsPart ai c k)).mines from rfl]
  rw [show ai.mines = (obsPart ai c k).mines from (obsPart_mines ai c k).symm]
  exact iterPass_mines_mono fuel _

/-! ## Soundness with respect to a ground-truth mine assignment

`Sound M ai` says that every sentence's count is the exact number of
ground-truth mines (`M`) among its cells, no safe cell is a mine, and every
known mine is one.  This is the invariant maintained by consistent oracle
input; the amended claims are relative to it. -/

/-- The sentence `t` is exact for the mine assignment `M`. -/
def SoundS (M : Finset Cell) (t : Sentence) : Prop :=
  t.count = ((t.cells ∩ M).card : Int)

/-- The whole agent state is exact for the mine assignment `M`. -/
def Sound (M : Finset Cell) (ai : AIState) : Prop :=
  (∀ t ∈ ai.knowledge, SoundS M t) ∧ ai.safes ∩ M = ∅ ∧ ai.mines ⊆ M

lemma SoundS.bounds {M : Finset Cell} {t : Sentence} (h : SoundS M t) :
    0 ≤ t.count ∧ t.count ≤ (t.cells.card : Int) := by
  constructor
  · rw [h]
    exact_mod_cast Nat.zero_le _
  · rw [h]
    exact_mod_cast Finset.card_le_card Finset.inter_subset_left

lemma SoundS.known_safes_inter {M : Finset Cell} {t : Sentence}
    (h : SoundS M t) : t.known_safes ∩ M = ∅ := by
  unfold Sentence.known_safes
  split
  case isTrue h0 =>
    have h1 : ((t.cells ∩ M).card : Int) = 0 := by rw [← h, h0]
    have h2 : (t.cells ∩ M).card = 0 := by exact_mod_cast h1
    exact Finset.card_eq_zero.mp h2
  case isFalse => exact Finset.empty_inter M

lemma SoundS.known_mines_subset {M : Finset Cell} {t : Sentence}
    (h : SoundS M t) : t.known_mines ⊆ M := by
  unfold Sentence.known_mines
  split
  case isTrue hc =>
    have h1 : ((t.cells ∩ M).card : Int) = (t.cells.card : Int) := by
      rw [← h, hc.1]
    have h2 : t.cells.card ≤ (t.cells ∩ M).card := le_of_eq (by exact_mod_cast h1.symm)
    have heq : t.cells ∩ M = t.cells :=
      Finset.eq_of_subset_of_card_le Finset.inter_subset_left h2
    intro x hx
    have : x ∈ t.cells ∩ M := heq.symm ▸ hx
    exact (Finset.mem_inter.mp this).2
  case isFalse => exact Finset.empty_subset M

lemma staOf_cons (t : Sentence) (r : List Sentence) :
    staOf (t :: r) = t.known_safes ∪ staOf r := rfl

lemma mtaOf_cons (t : Sentence) (r : List Sentence) :
    mtaOf (t :: r) = t.known_mines ∪ mtaOf r := rfl

lemma staOf_inter {M : Finset Cell} {kb : List Sentence}
    (h : ∀ t ∈ kb, SoundS M t) : staOf kb ∩ M = ∅ := by
  induction kb with
  | nil => simp [staOf]
  | cons t r ih =>
    rw [staOf_cons, Finset.union_inter_distrib_right,
      (h t (List.mem_cons_self t r)).known_safes_inter,
      ih fun u hu => h u (List.mem_cons_of_mem t hu), Finset.union_empty]

lemma mtaOf_subset {M : Finset Cell} {kb : List Sentence}
    (h : ∀ t ∈ kb, SoundS M t) : mtaOf kb ⊆ M := by
  induction kb with
  | nil => simp [mtaOf]
  | cons t r ih =>
    rw [mtaOf_cons]
    exact Finset.union_subset (h t (List.mem_cons_self t r)).known_mines_subset
      (ih fun u hu => h u (List.mem_cons_of_mem t hu))

lemma nsOf_inter {M : Finset Cell} {ai : AIState} (h : Sound M ai) :
    nsOf ai ∩ M = ∅ := by
  apply Finset.eq_empty_iff_forall_not_mem.mpr
  intro x hx
  rcases Finset.mem_inter.mp hx with ⟨hx1, hx2⟩
  have hx3 : x ∈ staOf ai.knowledge := (Finset.mem_sdiff.mp hx1).1
  exact Finset.eq_empty_iff_forall_not_mem.mp (staOf_inter h.1) x
    (Finset.mem_inter.mpr ⟨hx3, hx2⟩)

lemma nmOf_subset {M : Finset Cell} {ai : AIState} (h : Sound M ai) :
    nmOf ai ⊆ M := by
  intro x hx
  exact mtaOf_subset h.1 (Finset.mem_sdiff.mp hx).1

lemma safeSweep_sound {M ns : Finset Cell} {t : Sentence} (h : SoundS M t)
    (hns : ns ∩ M = ∅) : SoundS M (safeSweep ns t) := by
  have hset : (t.cells \ ns) ∩ M = t.cells ∩ M := by
    ext x
    simp only [Finset.mem_inter, Finset.mem_sdiff]
    constructor
    · rintro ⟨⟨h1, _⟩, h3⟩
      exact ⟨h1, h3⟩
    · rintro ⟨h1, h3⟩
      refine ⟨⟨h1, fun hx => ?_⟩, h3⟩
      exact Finset.eq_empty_iff_forall_not_mem.mp hns x
        (Finset.mem_inter.mpr ⟨hx, h3⟩)
  show t.count = (((t.cells \ ns) ∩ M).card : Int)
  rw [hset]
  exact h

lemma mineSweep_sound {M nm : Finset Cell} {t : Sentence} (h : SoundS M t)
    (hnm : nm ⊆ M) : SoundS M (mineSweep nm t) := by
  have hset : (t.cells \ nm) ∩ M = (t.cells ∩ M) \ (t.cells ∩ nm) := by
    ext x
    simp only [Finset.mem_inter, Finset.mem_sdiff]
    constructor
    · rintro ⟨⟨h1, h2⟩, h3⟩
      exact ⟨⟨h1, h3⟩, fun hx => h2 hx.2⟩
    · rintro ⟨⟨h1, h3⟩, h2⟩
      exact ⟨⟨h1, fun hx => h2 ⟨h1, hx⟩⟩, h3⟩
  have hsub : t.cells ∩ nm ⊆ t.cells ∩ M :=
    Finset.inter_subset_inter subset_rfl hnm
  show t.count - ((t.cells ∩ nm).card : Int) = (((t.cells \ nm) ∩ M).card : Int)
  rw [hset, Finset.card_sdiff hsub, Nat.cast_sub (Finset.card_le_card hsub), h]

lemma diff_sound {M : Finset Cell} {s1 s2 : Sentence} (h1 : SoundS M s1)
    (h2 : SoundS M s2) (hsub : s1.cells ⊆ s2.cells) :
    SoundS M (⟨s2.cells \ s1.cells, s2.count - s1.count⟩ : Sentence) := by
  have hset : (s2.cells \ s1.cells) ∩ M = (s2.cells ∩ M) \ (s1.cells ∩ M) := by
    ext x
    simp only [Finset.mem_inter, Finset.mem_sdiff]
    constructor
    · rintro ⟨⟨ha, hb⟩, hc⟩
      exact ⟨⟨ha, hc⟩, fun hx => hb hx.1⟩
    · rintro ⟨⟨ha, hc⟩, hb⟩
      exact ⟨⟨ha, fun hx => hb ⟨hx, hc⟩⟩, hc⟩
  have hsub' : s1.cells ∩ M ⊆ s2.cells ∩ M :=
    Finset.inter_subset_inter hsub subset_rfl
  show s2.count - s1.count = (((s2.cells \ s1.cells) ∩ M).card : Int)
  rw [hset, Finset.card_sdiff hsub', Nat.cast_sub (Finset.card_le_card hsub'),
    h1, h2]

lemma sweptKB_sound {M : Finset Cell} {ai : AIState} (h : Sound M ai) :
    ∀ t ∈ sweptKB ai, SoundS M t := by
  intro t ht
  rcases List.mem_map.mp ht with ⟨u, hu, hut⟩
  rcases List.mem_map.mp hu with ⟨v, hv, hvu⟩
  subst hut hvu
  exact mineSweep_sound (safeSweep_sound (h.1 v hv) (nsOf_inter h)) (nmOf_subset h)

lemma inferStep_sound {M : Finset Cell} {kb : List Sentence}
    (h : ∀ t ∈ kb, SoundS M t) : ∀ a ∈ inferStep kb, SoundS M a := by
  intro a ha
  rcases mem_inferStep ha with ⟨s1, hs1, s2, hs2, hne, hcne, hsub, heq, _, _⟩
  subst heq
  exact diff_sound (h s1 hs1) (h s2 hs2) hsub

/-- One closure pass preserves soundness. -/
lemma pass_sound {M : Finset Cell} {ai : AIState} (h : Sound M ai) :
    Sound M (pass1 ai) := by
  refine ⟨?_, ?_, ?_⟩
  · intro t ht
    rw [pass1_knowledge] at ht
    split at ht
    · exact sweptKB_sound h t ht
    · rcases List.mem_append.mp ht with ht' | ht'
      · exact sweptKB_sound h t ht'
      · exact inferStep_sound (sweptKB_sound h) t ht'
  · rw [pass1_safes, Finset.union_inter_distrib_right, h.2.1, nsOf_inter h,
      Finset.union_empty]
  · rw [pass1_mines]
    exact Finset.union_subset h.2.2 (nmOf_subset h)

lemma iterPass_sound {M : Finset Cell} (n : Nat) :
    ∀ {ai : AIState}, Sound M ai → Sound M (iterPass n ai) := by
  induction n with
  | zero => intro ai h; exact h
  | succ n ih => intro ai h; exact ih (pass_sound h)

lemma markSafeS_sound {M : Finset Cell} {t : Sentence} {c : Cell}
    (h : SoundS M t) (hc : c ∉ M) : SoundS M (t.mark_safe c) := by
  unfold Sentence.mark_safe
  split
  case isTrue hmem =>
    have hset : t.cells.erase c ∩ M = t.cells ∩ M := by
      ext x
      simp only [Finset.mem_inter, Finset.mem_erase]
      constructor
      · rintro ⟨⟨_, h1⟩, h2⟩
        exact ⟨h1, h2⟩
      · rintro ⟨h1, h2⟩
        exact ⟨⟨fun hx => hc (hx ▸ h2), h1⟩, h2⟩
    show t.count = ((t.cells.erase c ∩ M).card : Int)
    rw [hset]
    exact h
  case isFalse => exact h

/-- The observation part of `add_knowledge` preserves soundness when the
observed cell is not a mine and the reported count is the true number of
mines among the in-bounds neighbours. -/
lemma obsPart_sound {M : Finset Cell} {ai : AIState} {c : Cell} {k : Int}
    (h : Sound M ai) (hc : c ∉ M)
    (hk : k = (((neighborsOf ai c) ∩ M).card : Int)) :
    Sound M (obsPart ai c k) := by
  refine ⟨?_, ?_, ?_⟩
  · intro t ht
    rw [obsPart_knowledge] at ht
    have hmap : ∀ u ∈ ai.knowledge.map (·.mark_safe c), SoundS M u := by
      intro u hu
      rcases List.mem_map.mp hu with ⟨v, hv, hvu⟩
      subst hvu
      exact markSafeS_sound (h.1 v hv) hc
    split at ht
    · exact hmap t ht
    · rcases List.mem_append.mp ht with ht' | ht'
      · exact hmap t ht'
      · have hts : t = ⟨obsCandidates ai c, obsAdjusted ai c k⟩ :=
          List.mem_singleton.mp ht'
        subst hts
        -- soundness of the freshly observed sentence
        have hfil : (neighborsOf ai c).filter (fun p => p ∈ ai.mines) =
            neighborsOf ai c ∩ ai.mines := by
          ext x
          simp [Finset.mem_filter, Finset.mem_inter]
        have hsubm : neighborsOf ai c ∩ ai.mines ⊆ neighborsOf ai c ∩ M :=
          Finset.inter_subset_inter subset_rfl h.2.2
        have hset : obsCandidates ai c ∩ M =
            (neighborsOf ai c ∩ M) \ (neighborsOf ai c ∩ ai.mines) := by
          ext x
          simp only [obsCandidates, Finset.mem_filter, Finset.mem_inter,
            Finset.mem_sdiff, Finset.mem_insert]
          constructor
          · rintro ⟨⟨h1, h2, h3⟩, h4⟩
            exact ⟨⟨h1, h4⟩, fun hx => h3 hx.2⟩
          · rintro ⟨⟨h1, h4⟩, h2⟩
            refine ⟨⟨h1, ?_, fun hm => h2 ⟨h1, hm⟩⟩, h4⟩
            rintro (hxc | hxs)
            · exact hc (hxc ▸ h4)
            · exact Finset.eq_empty_iff_forall_not_mem.mp h.2.1 x
                (Finset.mem_inter.mpr ⟨hxs, h4⟩)
        show obsAdjusted ai c k = ((obsCandidates ai c ∩ M).card : Int)
        rw [obsAdjusted, hfil, hk, hset, Finset.card_sdiff hsubm,
          Nat.cast_sub (Finset.card_le_card hsubm)]
  · rw [obsPart_safes, Finset.insert_inter_of_not_mem hc, h.2.1]
  · rw [obsPart_mines]
    exact h.2.2

/-- Soundness forces `safes` and `mines` to be disjoint. -/
lemma sound_disjoint {M : Finset Cell} {ai : AIState} (h : Sound M ai) :
    ai.safes ∩ ai.mines = ∅ := by
  apply Finset.eq_empty_iff_forall_not_mem.mpr
  intro x hx
  rcases Finset.mem_inter.mp hx with ⟨h1, h2⟩
  exact Finset.eq_empty_iff_forall_not_mem.mp h.2.1 x
    (Finset.mem_inter.mpr ⟨h1, h.2.2 h2⟩)

/-- `add_knowledge` preserves soundness for truthful observations. -/
lemma addKnowledge_sound {M : Finset Cell} {ai : AIState} {c : Cell} {k : Int}
    (fuel : Nat) (h : Sound M ai) (hc : c ∉ M)
    (hk : k = (((neighborsOf ai c) ∩ M).card : Int)) :
    Sound M (addKnowledge fuel ai c k) := by
  have h1 : Sound M (iterPass fuel (obsPart ai c k)) :=
    iterPass_sound fuel (obsPart_sound h hc hk)
  refine ⟨?_, h1.2.1, h1.2.2⟩
  intro t ht
  exact h1.1 t (List.mem_filter.mp ht).1

/-! ## Termination of the closure loop from sound states

The measure: pairs `(unmarked cells of a fixed universe, sentences of the
finite sound sentence space missing from the knowledge base)`, combined
lexicographically into one natural number.  A pass that marks decreases the
first component; a pass that only stages sentences decreases the second. -/

/-- The union of all cells mentioned by the knowledge base. -/
def kbCells (kb : List Sentence) : Finset Cell :=
  kb.foldr (fun t acc => t.cells ∪ acc) ∅

lemma kbCells_cons (t : Sentence) (r : List Sentence) :
    kbCells (t :: r) = t.cells ∪ kbCells r := rfl

lemma mem_kbCells {x : Cell} {kb : List Sentence} :
    x ∈ kbCells kb ↔ ∃ t ∈ kb, x ∈ t.cells := by
  induction kb with
  | nil => simp [kbCells]
  | cons t r ih => simp [kbCells_cons, ih]

lemma cells_subset_kbCells {t : Sentence} {kb : List Sentence} (h : t ∈ kb) :
    t.cells ⊆ kbCells kb :=
  fun _ hx => mem_kbCells.mpr ⟨t, h, hx⟩

lemma known_safes_subset (t : Sentence) : t.known_safes ⊆ t.cells := by
  unfold Sentence.known_safes
  split
  · exact subset_rfl
  · exact Finset.empty_subset _

lemma known_mines_subset_cells (t : Sentence) : t.known_mines ⊆ t.cells := by
  unfold Sentence.known_mines
  split
  · exact subset_rfl
  · exact Finset.empty_subset _

lemma staOf_subset_kbCells (kb : List Sentence) : staOf kb ⊆ kbCells kb := by
  induction kb with
  | nil => simp [staOf, kbCells]
  | cons t r ih =>
    rw [staOf_cons, kbCells_cons]
    exact Finset.union_subset_union (known_safes_subset t) ih

lemma mtaOf_subset_kbCells (kb : List Sentence) : mtaOf kb ⊆ kbCells kb := by
  induction kb with
  | nil => simp [mtaOf, kbCells]
  | cons t r ih =>
    rw [mtaOf_cons, kbCells_cons]
    exact Finset.union_subset_union (known_mines_subset_cells t) ih

lemma kbCells_map_subset {f : Sentence → Sentence}
    (hf : ∀ t, (f t).cells ⊆ t.cells) (kb : List Sentence) :
    kbCells (kb.map f) ⊆ kbCells kb := by
  induction kb with
  | nil => simp [kbCells]
  | cons t r ih =>
    rw [List.map_cons, kbCells_cons, kbCells_cons]
    exact Finset.union_subset_union (hf t) ih

lemma kbCells_append (l1 l2 : List Sentence) :
    kbCells (l1 ++ l2) = kbCells l1 ∪ kbCells l2 := by
  induction l1 with
  | nil => simp [kbCells]
  | cons t r ih =>
    rw [List.cons_append, kbCells_cons, kbCells_cons, ih, Finset.union_assoc]

lemma inferStep_cells_subset (kb : List Sentence) :
    kbCells (inferStep kb) ⊆ kbCells kb := by
  intro x hx
  rcases mem_kbCells.mp hx with ⟨a, ha, hxa⟩
  rcases mem_inferStep ha with ⟨s1, hs1, s2, hs2, _, _, _, heq, _, _⟩
  subst heq
  exact cells_subset_kbCells hs2 (Finset.mem_sdiff.mp hxa).1

lemma sweptKB_cells_subset (ai : AIState) :
    kbCells (sweptKB ai) ⊆ kbCells ai.knowledge := by
  unfold sweptKB
  exact (kbCells_map_subset (fun t => Finset.sdiff_subset) _).trans
    (kbCells_map_subset (fun t => Finset.sdiff_subset) _)

lemma pass1_kbCells (ai : AIState) :
    kbCells (pass1 ai).knowledge ⊆ kbCells ai.knowledge := by
  rw [pass1_knowledge]
  split
  · exact sweptKB_cells_subset ai
  · rw [kbCells_append]
    exact Finset.union_subset (sweptKB_cells_subset ai)
      ((inferStep_cells_subset _).trans (sweptKB_cells_subset ai))

/-- All sentences over a cell universe `U` whose count lies in
`[0, |U|]`: the finite space in which a sound knowledge base lives. -/
def sentenceSpace (U : Finset Cell) : Finset Sentence :=
  (U.powerset ×ˢ Finset.range (U.card + 1)).image fun p => ⟨p.1, (p.2 : Int)⟩

lemma mem_sentenceSpace {U : Finset Cell} {t : Sentence} (h1 : t.cells ⊆ U)
    (h2 : 0 ≤ t.count) (h3 : t.count ≤ (U.card : Int)) :
    t ∈ sentenceSpace U := by
  apply Finset.mem_image.mpr
  refine ⟨(t.cells, t.count.toNat), ?_, ?_⟩
  · apply Finset.mem_product.mpr
    refine ⟨Finset.mem_powerset.mpr h1, Finset.mem_range.mpr ?_⟩
    omega
  · cases t with
    | mk cs n =>
      have hn : ((n.toNat : Int)) = n := Int.toNat_of_nonneg h2
      simp [hn]

/-- The termination measure of the closure loop, relative to a cell
universe `U`. -/
def measureFn (U : Finset Cell) (ai : AIState) : Nat :=
  (U \ (ai.safes ∪ ai.mines)).card * ((sentenceSpace U).card + 1) +
    ((sentenceSpace U) \ ai.knowledge.toFinset).card

/-- An updating pass from a sound state strictly decreases the measure. -/
lemma pass_measure_lt {M U : Finset Cell} {ai : AIState} (hs : Sound M ai)
    (hU : kbCells ai.knowledge ⊆ U) (hupd : updFlag ai = true) :
    measureFn U (pass1 ai) < measureFn U ai := by
  by_cases hmark : nsOf ai = ∅ ∧ nmOf ai = ∅
  · -- no new marks: the pass must have staged at least one new sentence
    have hstaged : inferStep (sweptKB ai) ≠ [] := by
      intro h0
      have h1 := (updFlag_false_iff ai).mpr ⟨hmark.1, hmark.2, h0⟩
      rw [hupd] at h1
      exact absurd h1 (by simp)
    have hkb2 : sweptKB ai = ai.knowledge := sweptKB_of_no_marks hmark.1 hmark.2
    rw [hkb2] at hstaged
    have hsafes : (pass1 ai).safes = ai.safes := by
      rw [pass1_safes, hmark.1, Finset.union_empty]
    have hmines : (pass1 ai).mines = ai.mines := by
      rw [pass1_mines, hmark.2, Finset.union_empty]
    have hknow : (pass1 ai).knowledge =
        ai.knowledge ++ inferStep ai.knowledge := by
      rw [pass1_knowledge, hkb2, if_neg hstaged]
    obtain ⟨a, ha⟩ := List.exists_mem_of_ne_nil _ hstaged
    have hasound : SoundS M a := inferStep_sound hs.1 a ha
    have hacells : a.cells ⊆ U := by
      intro x hx
      exact hU (inferStep_cells_subset _ (mem_kbCells.mpr ⟨a, ha, hx⟩))
    have haspace : a ∈ sentenceSpace U := by
      refine mem_sentenceSpace hacells hasound.bounds.1 ?_
      calc a.count ≤ (a.cells.card : Int) := hasound.bounds.2
        _ ≤ (U.card : Int) := by exact_mod_cast Finset.card_le_card hacells
    obtain ⟨s1, hs1, s2, hs2, _, _, _, _, hnotkb, _⟩ := mem_inferStep ha
    have hsubfin : (pass1 ai).knowledge.toFinset ⊇ ai.knowledge.toFinset := by
      intro b hb
      rw [hknow, List.mem_toFinset]
      exact List.mem_append_left _ (List.mem_toFinset.mp hb)
    have hssub : sentenceSpace U \ (pass1 ai).knowledge.toFinset ⊂
        sentenceSpace U \ ai.knowledge.toFinset := by
      refine (Finset.ssubset_iff_of_subset
        (Finset.sdiff_subset_sdiff subset_rfl hsubfin)).mpr ?_
      refine ⟨a, Finset.mem_sdiff.mpr ⟨haspace, ?_⟩, fun hmem => ?_⟩
      · rw [List.mem_toFinset]
        exact hnotkb
      · refine (Finset.mem_sdiff.mp hmem).2 ?_
        rw [hknow, List.mem_toFinset]
        exact List.mem_append_right _ ha
    have hlt2 := Finset.card_lt_card hssub
    unfold measureFn
    rw [hsafes, hmines]
    exact Nat.add_lt_add_left hlt2 _
  · -- at least one new cell gets marked this pass
    have hone : (nsOf ai ∪ nmOf ai).Nonempty := by
      rcases not_and_or.mp hmark with h | h
      · obtain ⟨x, hx⟩ := Finset.nonempty_iff_ne_empty.mpr h
        exact ⟨x, Finset.mem_union_left _ hx⟩
      · obtain ⟨x, hx⟩ := Finset.nonempty_iff_ne_empty.mpr h
        exact ⟨x, Finset.mem_union_right _ hx⟩
    obtain ⟨x, hx⟩ := hone
    have hxU : x ∈ U := by
      rcases Finset.mem_union.mp hx with h | h
      · exact hU (staOf_subset_kbCells _ (Finset.mem_sdiff.mp h).1)
      · exact hU (mtaOf_subset_kbCells _ (Finset.mem_sdiff.mp h).1)
    have hxold : x ∉ ai.safes ∪ ai.mines := by
      rcases Finset.mem_union.mp hx with h | h
      · rcases Finset.mem_sdiff.mp h with ⟨hsta, hnsafe⟩
        have hxM : x ∉ M := fun hm =>
          Finset.eq_empty_iff_forall_not_mem.mp (staOf_inter hs.1) x
            (Finset.mem_inter.mpr ⟨hsta, hm⟩)
        intro hmem
        rcases Finset.mem_union.mp hmem with h' | h'
        · exact hnsafe h'
        · exact hxM (hs.2.2 h')
      · rcases Finset.mem_sdiff.mp h with ⟨hmta, hnmine⟩
        have hxM : x ∈ M := mtaOf_subset hs.1 hmta
        intro hmem
        rcases Finset.mem_union.mp hmem with h' | h'
        · exact Finset.eq_empty_iff_forall_not_mem.mp hs.2.1 x
            (Finset.mem_inter.mpr ⟨h', hxM⟩)
        · exact hnmine h'
    have hgrow : ai.safes ∪ ai.mines ⊆ (pass1 ai).safes ∪ (pass1 ai).mines := by
      rw [pass1_safes, pass1_mines]
      exact Finset.union_subset_union Finset.subset_union_left
        Finset.subset_union_left
    have hxnew : x ∈ (pass1 ai).safes ∪ (pass1 ai).mines := by
      rw [pass1_safes, pass1_mines]
      rcases Finset.mem_union.mp hx with h | h
      · exact Finset.mem_union_left _ (Finset.mem_union_right _ h)
      · exact Finset.mem_union_right _ (Finset.mem_union_right _ h)
    have hssub : U \ ((pass1 ai).safes ∪ (pass1 ai).mines) ⊂
        U \ (ai.safes ∪ ai.mines) := by
      refine (Finset.ssubset_iff_of_subset
        (Finset.sdiff_subset_sdiff subset_rfl hgrow)).mpr ?_
      exact ⟨x, Finset.mem_sdiff.mpr ⟨hxU, hxold⟩,
        fun hmem => (Finset.mem_sdiff.mp hmem).2 hxnew⟩
    have hA := Finset.card_lt_card hssub
    have hbN : (sentenceSpace U \ (pass1 ai).knowledge.toFinset).card ≤
        (sentenceSpace U).card := Finset.card_le_card Finset.sdiff_subset
    unfold measureFn
    calc (U \ ((pass1 ai).safes ∪ (pass1 ai).mines)).card *
          ((sentenceSpace U).card + 1) +
          (sentenceSpace U \ (pass1 ai).knowledge.toFinset).card
        < (U \ ((pass1 ai).safes ∪ (pass1 ai).mines)).card *
            ((sentenceSpace U).card + 1) + ((sentenceSpace U).card + 1) :=
          Nat.add_lt_add_left (Nat.lt_succ_of_le hbN) _
      _ = ((U \ ((pass1 ai).safes ∪ (pass1 ai).mines)).card + 1) *
            ((sentenceSpace U).card + 1) := by ring
      _ ≤ (U \ (ai.safes ∪ ai.mines)).card * ((sentenceSpace U).card + 1) :=
          Nat.mul_le_mul_right _ (Nat.succ_le_of_lt hA)
      _ ≤ (U \ (ai.safes ∪ ai.mines)).card * ((sentenceSpace U).card + 1) +
            (sentenceSpace U \ ai.knowledge.toFinset).card :=
          Nat.le_add_right _ _

/-- The closure loop reaches its fixpoint from every sound state: strong
induction on the measure. -/
lemma closure_terminates_aux {M : Finset Cell} (U : Finset Cell) :
    ∀ (n : Nat) (ai : AIState), measureFn U ai ≤ n → Sound M ai →
      kbCells ai.knowledge ⊆ U → ∃ k, updFlag (iterPass k ai) = false := by
  intro n
  induction n with
  | zero =>
    intro ai hm hs hU
    by_cases h : updFlag ai = false
    · exact ⟨0, h⟩
    · have hb : updFlag ai = true := by
        revert h
        cases updFlag ai <;> simp
      have := pass_measure_lt hs hU hb
      omega
  | succ n ih =>
    intro ai hm hs hU
    by_cases h : updFlag ai = false
    · exact ⟨0, h⟩
    · have hb : updFlag ai = true := by
        revert h
        cases updFlag ai <;> simp
      have hlt := pass_measure_lt hs hU hb
      obtain ⟨k, hk⟩ := ih (pass1 ai) (by omega) (pass_sound hs)
        ((pass1_kbCells ai).trans hU)
      exact ⟨k + 1, by rw [iterPass_succ]; exact hk⟩

/-- From every sound state the closure loop terminates. -/
lemma closure_terminates {M : Finset Cell} {ai : AIState} (hs : Sound M ai) :
    ∃ k, updFlag (iterPass k ai) = false :=
  closure_terminates_aux (kbCells ai.knowledge)
    (measureFn (kbCells ai.knowledge) ai) ai le_rfl hs subset_rfl

/-! ## A reachable state on which the closure loop never terminates

Three `add_knowledge` calls on a fresh 2×3 agent — `(0,0)` with count 1,
then `(0,1)` with count 6, then `(0,1)` again with count 8 (an inconsistent
oracle, which nothing in the code rejects) — produce the knowledge base
`[ {(1,0),(1,1)}=1, Y=6, {(0,2),(1,2)}=5, Y=8 ]` with
`Y = {(0,2),(1,0),(1,1),(1,2)}`.  Subset differences then generate ever-new
counts forever: counts on `X = {(1,0),(1,1)}` and `Z = {(0,2),(1,2)}` stay
odd (so no sentence ever triggers a mark), and a fixpoint would force the
finite set of `X`-counts to be closed under subtracting 2. -/

/-- The cell set `X` of the diverging family. -/
def Xc : Finset Cell := {(1, 0), (1, 1)}

/-- The cell set `Z` of the diverging family. -/
def Zc : Finset Cell := {(0, 2), (1, 2)}

/-- The cell set `Y = X ∪ Z` of the diverging family. -/
def Yc : Finset Cell := {(0, 2), (1, 0), (1, 1), (1, 2)}

/-- The closure-loop entry state of the third call above. -/
def divergeState : AIState :=
  obsPart (addKnowledge 5 (addKnowledge 5 (initAI 2 3) (0, 0) 1) (0, 1) 6)
    (0, 1) 8

/-- The sentence shapes that persist forever on the diverging state. -/
def Jp (t : Sentence) : Prop :=
  ((t.cells = Xc ∨ t.cells = Zc) ∧ t.count % 2 = 1) ∨
    (t.cells = Yc ∧ (t.count = 6 ∨ t.count = 8))

/-- The invariant preserved by every closure pass on the diverging state. -/
def Jinv (ai : AIState) : Prop :=
  (∀ t ∈ ai.knowledge, Jp t) ∧ (∃ t ∈ ai.knowledge, t.cells = Xc) ∧
    (⟨Yc, 6⟩ : Sentence) ∈ ai.knowledge ∧ (⟨Yc, 8⟩ : Sentence) ∈ ai.knowledge

lemma Jp_count_ne_zero {t : Sentence} (h : Jp t) : t.count ≠ 0 := by
  rcases h with ⟨_, hodd⟩ | ⟨_, hv⟩
  · omega
  · rcases hv with hv | hv <;> omega

lemma Jp_known_safes {t : Sentence} (h : Jp t) : t.known_safes = ∅ := by
  unfold Sentence.known_safes
  rw [if_neg (Jp_count_ne_zero h)]

lemma Jp_known_mines {t : Sentence} (h : Jp t) : t.known_mines = ∅ := by
  unfold Sentence.known_mines
  split
  case isTrue hc =>
    exfalso
    rcases h with ⟨hcells, hodd⟩ | ⟨hcells, hv⟩
    · rcases hcells with hx | hz
      · rw [hx, show Xc.card = 2 from by decide] at hc
        omega
      · rw [hz, show Zc.card = 2 from by decide] at hc
        omega
    · rw [hcells, show Yc.card = 4 from by decide] at hc
      rcases hv with hv | hv <;> omega
  case isFalse => rfl

lemma staOf_eq_empty {kb : List Sentence}
    (h : ∀ t ∈ kb, t.known_safes = ∅) : staOf kb = ∅ := by
  induction kb with
  | nil => rfl
  | cons t r ih =>
    rw [staOf_cons, h t (List.mem_cons_self t r),
      ih fun u hu => h u (List.mem_cons_of_mem t hu), Finset.empty_union]

lemma mtaOf_eq_empty {kb : List Sentence}
    (h : ∀ t ∈ kb, t.known_mines = ∅) : mtaOf kb = ∅ := by
  induction kb with
  | nil => rfl
  | cons t r ih =>
    rw [mtaOf_cons, h t (List.mem_cons_self t r),
      ih fun u hu => h u (List.mem_cons_of_mem t hu), Finset.empty_union]

lemma J_ns {ai : AIState} (h : Jinv ai) : nsOf ai = ∅ := by
  unfold nsOf
  rw [staOf_eq_empty fun t ht => Jp_known_safes (h.1 t ht)]
  exact Finset.empty_sdiff _

lemma J_nm {ai : AIState} (h : Jinv ai) : nmOf ai = ∅ := by
  unfold nmOf
  rw [mtaOf_eq_empty fun t ht => Jp_known_mines (h.1 t ht)]
  exact Finset.empty_sdiff _

lemma J_swept {ai : AIState} (h : Jinv ai) : sweptKB ai = ai.knowledge :=
  sweptKB_of_no_marks (J_ns h) (J_nm h)

/-- The counts of the `X`-sentences of a knowledge base. -/
def Xcounts (kb : List Sentence) : Finset Int :=
  ((kb.filter fun t => decide (t.cells = Xc)).map Sentence.count).toFinset

lemma mem_Xcounts {kb : List Sentence} {a : Int} :
    a ∈ Xcounts kb ↔ ∃ t ∈ kb, t.cells = Xc ∧ t.count = a := by
  simp only [Xcounts, List.mem_toFinset, List.mem_map, List.mem_filter,
    decide_eq_true_eq]
  constructor
  · rintro ⟨t, ⟨ht, hc⟩, hn⟩
    exact ⟨t, ht, hc, hn⟩
  · rintro ⟨t, ht, hc, hn⟩
    exact ⟨t, ⟨ht, hc⟩, hn⟩

lemma Xcounts_nonempty {ai : AIState} (h : Jinv ai) :
    (Xcounts ai.knowledge).Nonempty := by
  obtain ⟨t, ht, hx⟩ := h.2.1
  exact ⟨t.count, mem_Xcounts.mpr ⟨t, ht, hx, rfl⟩⟩

/-- No `J`-state is an inference fixpoint: the minimal `X`-count would have
to be closed under subtracting 2. -/
lemma J_staged_ne {ai : AIState} (h : Jinv ai) :
    inferStep ai.knowledge ≠ [] := by
  intro h0
  have hne := Xcounts_nonempty h
  set a := (Xcounts ai.knowledge).min' hne with ha
  have hmem := (Xcounts ai.knowledge).min'_mem hne
  obtain ⟨t, ht, htc, htn⟩ := mem_Xcounts.mp hmem
  have hteq : t = ⟨Xc, a⟩ := by
    cases t
    simp_all
  rw [hteq] at ht
  -- first step: subtract the X-sentence from Y=8, giving a Z-sentence
  have hYX : Yc \ Xc = Zc := by decide
  have hd1 := inferStep_complete ht h.2.2.2
    (by
      intro heq
      have hcc : Xc = Yc := congrArg Sentence.cells heq
      exact absurd hcc (by decide))
    (show Xc ≠ ∅ from by decide) (show Xc ⊆ Yc from by decide)
    (by
      show Yc \ Xc ≠ ∅
      rw [hYX]
      decide)
  rw [h0] at hd1
  have hz1 : (⟨Zc, 8 - a⟩ : Sentence) ∈ ai.knowledge := by
    rcases hd1 with hd1 | hd1
    · rw [show (⟨Yc \ Xc, 8 - a⟩ : Sentence) = ⟨Zc, 8 - a⟩ from by rw [hYX]]
        at hd1
      exact hd1
    · exact absurd hd1 (List.not_mem_nil _)
  -- second step: subtract that Z-sentence from Y=6, giving X-count a-2
  have hYZ : Yc \ Zc = Xc := by decide
  have hd2 := inferStep_complete hz1 h.2.2.1
    (by
      intro heq
      have hcc : Zc = Yc := congrArg Sentence.cells heq
      exact absurd hcc (by decide))
    (show Zc ≠ ∅ from by decide) (show Zc ⊆ Yc from by decide)
    (by
      show Yc \ Zc ≠ ∅
      rw [hYZ]
      decide)
  rw [h0] at hd2
  have hz2 : (⟨Xc, 6 - (8 - a)⟩ : Sentence) ∈ ai.knowledge := by
    rcases hd2 with hd2 | hd2
    · rw [show (⟨Yc \ Zc, 6 - (8 - a)⟩ : Sentence) = ⟨Xc, 6 - (8 - a)⟩ from
        by rw [hYZ]] at hd2
      exact hd2
    · exact absurd hd2 (List.not_mem_nil _)
  have hmem2 : 6 - (8 - a) ∈ Xcounts ai.knowledge :=
    mem_Xcounts.mpr ⟨⟨Xc, 6 - (8 - a)⟩, hz2, rfl, rfl⟩
  have hle := (Xcounts ai.knowledge).min'_le _ hmem2
  rw [← ha] at hle
  omega

/-- Every `J`-state reports `updated = true`. -/
lemma J_upd {ai : AIState} (h : Jinv ai) : updFlag ai = true := by
  have hst := J_staged_ne h
  have hsw := J_swept h
  simp only [updFlag, passFn]
  rw [hsw]
  simp [hst]

/-- The invariant survives one closure pass. -/
lemma J_pass {ai : AIState} (h : Jinv ai) : Jinv (pass1 ai) := by
  have hsw := J_swept h
  have hst := J_staged_ne h
  have hknow : (pass1 ai).knowledge = ai.knowledge ++ inferStep ai.knowledge := by
    rw [pass1_knowledge, hsw, if_neg hst]
  refine ⟨?_, ?_, ?_, ?_⟩
  · intro t ht
    rw [hknow] at ht
    rcases List.mem_append.mp ht with ht' | ht'
    · exact h.1 t ht'
    · rcases mem_inferStep ht' with
        ⟨s1, hs1, s2, hs2, hne, hcne, hsub, heq, hnkb, hcne2⟩
      have hp1 := h.1 s1 hs1
      have hp2 := h.1 s2 hs2
      subst heq
      rcases hp1 with ⟨hc1, hodd1⟩ | ⟨hc1, hv1⟩ <;>
        rcases hp2 with ⟨hc2, hodd2⟩ | ⟨hc2, hv2⟩
      · -- both among {X, Z}: equal cells give an empty difference,
        -- distinct ones are never subsets of each other
        exfalso
        rcases hc1 with hc1 | hc1 <;> rcases hc2 with hc2 | hc2
        · rw [hc1, hc2] at hcne2
          exact hcne2 (by simp)
        · rw [hc1, hc2] at hsub
          exact absurd hsub (by decide)
        · rw [hc1, hc2] at hsub
          exact absurd hsub (by decide)
        · rw [hc1, hc2] at hcne2
          exact hcne2 (by simp)
      · -- s1 among {X, Z}, s2 = Y: an odd-count difference over the
        -- complementary cell set
        left
        rcases hc1 with hc1 | hc1
        · refine ⟨Or.inr ?_, ?_⟩
          · show s2.cells \ s1.cells = Zc
            rw [hc1, hc2]
            decide
          · show (s2.count - s1.count) % 2 = 1
            rcases hv2 with hv | hv <;> omega
        · refine ⟨Or.inl ?_, ?_⟩
          · show s2.cells \ s1.cells = Xc
            rw [hc1, hc2]
            decide
          · show (s2.count - s1.count) % 2 = 1
            rcases hv2 with hv | hv <;> omega
      · -- s1 = Y, s2 among {X, Z}: Y is never a subset of either
        exfalso
        rcases hc2 with hc2 | hc2 <;> rw [hc1, hc2] at hsub <;>
          exact absurd hsub (by decide)
      · -- both Y: empty difference
        exfalso
        rw [hc1, hc2] at hcne2
        exact hcne2 (by simp)
  · obtain ⟨t, ht, hx⟩ := h.2.1
    exact ⟨t, by rw [hknow]; exact List.mem_append_left _ ht, hx⟩
  · rw [hknow]
    exact List.mem_append_left _ h.2.2.1
  · rw [hknow]
    exact List.mem_append_left _ h.2.2.2

lemma J_iter (n : Nat) : ∀ {ai : AIState}, Jinv ai → Jinv (iterPass n ai) := by
  induction n with
  | zero => intro ai h; exact h
  | succ n ih => intro ai h; exact ih (J_pass h)

instance : DecidablePred Jp := fun t => by
  unfold Jp
  infer_instance

instance (ai : AIState) : Decidable (Jinv ai) := by
  unfold Jinv
  infer_instance

/-- A fresh agent is sound for the empty mine assignment. -/
lemma sound_empty_init : Sound ∅ (initAI 2 2) :=
  ⟨fun t ht => absurd ht (List.not_mem_nil t), Finset.empty_inter _,
    Finset.empty_subset _⟩

/-! ## States for the concrete subset-rule scenarios of the specification -/

/-- A knowledge base holding `A = {1,2} = 1` and `B = {1,2,3} = 2` (cells
`1, 2, 3` rendered as `(0,1), (0,2), (0,3)` on a 1×4 board). -/
def scnA : AIState :=
  ⟨1, 4, ∅, ∅, ∅, [⟨{(0, 1), (0, 2)}, 1⟩, ⟨{(0, 1), (0, 2), (0, 3)}, 2⟩]⟩

/-- A knowledge base holding `{A,B,C} = 1` and `{A,B} = 1` (cells `A, B, C`
rendered as `(0,0), (0,1), (0,2)` on a 1×3 board). -/
def scnB : AIState :=
  ⟨1, 3, ∅, ∅, ∅, [⟨{(0, 0), (0, 1), (0, 2)}, 1⟩, ⟨{(0, 0), (0, 1)}, 1⟩]⟩

/-! ## The claims -/

/-- **C1** (confirmed).  Subset-inference correctness of the closure loop:
whenever the knowledge base holds sentences `A ≠ B` with `A.cells` a
non-empty subset of `B.cells`, one inference sweep stages the difference
sentence `(B.cells − A.cells, B.count − A.count)` unless it is already
present; and concretely, from `A = {1,2} = 1` and `B = {1,2,3} = 2` the
closure derives `{3} = 1` after one pass and terminates two passes later
with cell `3` in `mines`, while from `{A,B,C} = 1` and `{A,B} = 1` it
derives `{C} = 0` and terminates with `C` in `safes`.  The
`updFlag … = false` conjuncts certify the `while` loop has genuinely
reached its fixpoint there. -/
theorem subset_rule_correct :
    (∀ (kb : List Sentence) (s1 s2 : Sentence), s1 ∈ kb → s2 ∈ kb →
      s1 ≠ s2 → s1.cells ≠ ∅ → s1.cells ⊆ s2.cells →
      (⟨s2.cells \ s1.cells, s2.count - s1.count⟩ : Sentence).cells ≠ ∅ →
      (⟨s2.cells \ s1.cells, s2.count - s1.count⟩ : Sentence) ∈ kb ∨
        (⟨s2.cells \ s1.cells, s2.count - s1.count⟩ : Sentence) ∈
          inferStep kb) ∧
    ((⟨{((0 : Int), (3 : Int))}, 1⟩ : Sentence) ∈ (iterPass 1 scnA).knowledge ∧
      (iterPass 2 scnA).mines = {((0 : Int), (3 : Int))} ∧
      updFlag (iterPass 2 scnA) = false) ∧
    ((⟨{((0 : Int), (2 : Int))}, 0⟩ : Sentence) ∈ (iterPass 1 scnB).knowledge ∧
      (((0 : Int), (2 : Int)) : Cell) ∈ (iterPass 2 scnB).safes ∧
      updFlag (iterPass 2 scnB) = false) := by
  refine ⟨?_, by decide, by decide⟩
  intro kb s1 s2 h1 h2 hne hcne hsub hd
  exact inferStep_complete h1 h2 hne hcne hsub hd

/-- Witness for C1: the general conjunct applied to the two concrete
sentences of scenario A. -/
theorem subset_rule_correct_witness :
    (⟨{((0 : Int), (3 : Int))}, 1⟩ : Sentence) ∈ scnA.knowledge ∨
      (⟨{((0 : Int), (3 : Int))}, 1⟩ : Sentence) ∈ inferStep scnA.knowledge := by
  have h := subset_rule_correct.1 scnA.knowledge
    ⟨{(0, 1), (0, 2)}, 1⟩ ⟨{(0, 1), (0, 2), (0, 3)}, 2⟩
    (by decide) (by decide) (by decide) (by decide) (by decide) (by decide)
  rw [show (⟨({(0, 1), (0, 2), (0, 3)} : Finset Cell) \ {(0, 1), (0, 2)},
      2 - 1⟩ : Sentence) = ⟨{((0 : Int), (3 : Int))}, 1⟩ from by decide] at h
  exact h

/-- **C2** counterexample.  The closure loop does not terminate for every
call: after the three calls `add_knowledge (0,0) 1`, `add_knowledge (0,1) 6`
and `add_knowledge (0,1) 8` on a fresh 2×3 agent (the code rejects neither
the repeated cell nor the inconsistent counts), the third call's closure
loop never reports `updated = false`.  The first two conjuncts certify that
the first two calls' loops did terminate within the fuel used, the third
pins down the knowledge base at the diverging loop's entry. -/
theorem closure_diverges :
    updFlag (obsPart (initAI 2 3) (0, 0) 1) = false ∧
    updFlag (iterPass 1
      (obsPart (addKnowledge 5 (initAI 2 3) (0, 0) 1) (0, 1) 6)) = false ∧
    divergeState.knowledge = [⟨Xc, 1⟩, ⟨Yc, 6⟩, ⟨Zc, 5⟩, ⟨Yc, 8⟩] ∧
    ¬ ∃ n, updFlag (iterPass n divergeState) = false := by
  refine ⟨by decide, by decide, by decide, ?_⟩
  rintro ⟨n, hn⟩
  have hJ : Jinv divergeState := by decide
  have htrue := J_upd (J_iter n hJ)
  rw [hn] at htrue
  exact absurd htrue (by simp)

/-- **C2** amended (proved).  The closure loop of `add_knowledge` terminates
for every call whose state and observation are consistent with a single
ground-truth mine assignment `M` — sound sentences, a non-mine observed
cell, and the true neighbour mine count.  (With inconsistent input the loop
can run forever, see the counterexample.) -/
theorem closure_terminates_of_sound (M : Finset Cell) {ai : AIState}
    {c : Cell} {k : Int} (hs : Sound M ai) (hc : c ∉ M)
    (hk : k = (((neighborsOf ai c) ∩ M).card : Int)) :
    ∃ n, updFlag (iterPass n (obsPart ai c k)) = false :=
  closure_terminates (obsPart_sound hs hc hk)

/-- Witness for the amended C2 at a concrete sound call. -/
theorem closure_terminates_of_sound_witness :
    ∃ n, updFlag (iterPass n (obsPart (initAI 2 2) (0, 0) 0)) = false :=
  closure_terminates_of_sound ∅ sound_empty_init (by decide) (by decide)

/-- **C3** counterexample.  The sentence invariant `0 ≤ count ≤ |cells|`
fails on a reachable state: a single call `add_knowledge (0,0) 5` on a
fresh 2×2 agent leaves the sentence `{(0,1),(1,0),(1,1)} = 5` in the
knowledge base, whose count exceeds its three cells. -/
theorem sentence_invariant_violation :
    (addKnowledge 5 (initAI 2 2) (0, 0) 5).knowledge =
      [⟨{(0, 1), (1, 0), (1, 1)}, 5⟩] ∧
    ¬ ((5 : Int) ≤
      ((({((0 : Int), (1 : Int)), (1, 0), (1, 1)} : Finset Cell)).card : Int)) :=
  ⟨by decide, by decide⟩

/-- **C3** amended (proved).  For call sequences consistent with a fixed
mine assignment `M` — sound states and truthful counts — every sentence
satisfies `0 ≤ count ≤ |cells|` before the call, soundness is preserved by
the call, and the bound holds for every sentence after the call.
Inconsistent input can violate the bound (see the counterexample). -/
theorem sentence_invariant_of_sound (M : Finset Cell) {ai : AIState}
    {c : Cell} {k : Int} (fuel : Nat) (hs : Sound M ai) (hc : c ∉ M)
    (hk : k = (((neighborsOf ai c) ∩ M).card : Int)) :
    (∀ t ∈ ai.knowledge, 0 ≤ t.count ∧ t.count ≤ (t.cells.card : Int)) ∧
    Sound M (addKnowledge fuel ai c k) ∧
    (∀ t ∈ (addKnowledge fuel ai c k).knowledge,
      0 ≤ t.count ∧ t.count ≤ (t.cells.card : Int)) := by
  have h2 := addKnowledge_sound fuel hs hc hk
  exact ⟨fun t ht => (hs.1 t ht).bounds, h2, fun t ht => (h2.1 t ht).bounds⟩

/-- Witness for the amended C3: the truthful call `add_knowledge (0,0) 1`
against the mine assignment `{(1,1)}` leaves the sentence
`{(0,1),(1,0),(1,1)} = 1` in the knowledge base, and the theorem yields its
count bounds. -/
theorem sentence_invariant_of_sound_witness :
    0 ≤ (⟨{(0, 1), (1, 0), (1, 1)}, 1⟩ : Sentence).count ∧
      (⟨{(0, 1), (1, 0), (1, 1)}, 1⟩ : Sentence).count ≤
        (((⟨{(0, 1), (1, 0), (1, 1)}, 1⟩ : Sentence)).cells.card : Int) :=
  (@sentence_invariant_of_sound {((1 : Int), (1 : Int))} (initAI 2 2)
    (0, 0) 1 2
    ⟨fun t ht => absurd ht (List.not_mem_nil t), by decide, by decide⟩
    (by decide) (by decide)).2.2 ⟨{(0, 1), (1, 0), (1, 1)}, 1⟩ (by decide)

/-- **C4** counterexample.  `safes` and `mines` do not stay disjoint: on a
fresh 2×2 agent the three calls `add_knowledge (1,0) 1`,
`add_knowledge (0,0) 1`, `add_knowledge (1,1) 0` (inconsistent oracle
counts, which nothing rejects) leave cell `(0,1)` in both `safes` and
`mines`.  The `updFlag` conjuncts certify each call's closure loop
terminated within the fuel used, so the computed states are the Python
ones. -/
theorem disjointness_violation :
    updFlag (obsPart (initAI 2 2) (1, 0) 1) = false ∧
    updFlag (obsPart (addKnowledge 5 (initAI 2 2) (1, 0) 1) (0, 0) 1) = false ∧
    updFlag (iterPass 1 (obsPart
      (addKnowledge 5 (addKnowledge 5 (initAI 2 2) (1, 0) 1) (0, 0) 1)
      (1, 1) 0)) = false ∧
    (((0 : Int), (1 : Int)) : Cell) ∈
      (addKnowledge 5 (addKnowledge 5 (addKnowledge 5 (initAI 2 2) (1, 0) 1)
        (0, 0) 1) (1, 1) 0).safes ∧
    (((0 : Int), (1 : Int)) : Cell) ∈
      (addKnowledge 5 (addKnowledge 5 (addKnowledge 5 (initAI 2 2) (1, 0) 1)
        (0, 0) 1) (1, 1) 0).mines :=
  ⟨by decide, by decide, by decide, by decide, by decide⟩

/-- **C4** amended (proved).  Across `add_knowledge` calls, `safes` and
`mines` grow monotonically unconditionally; they remain disjoint provided
the call is consistent with a fixed mine assignment `M` (sound state,
non-mine cell, truthful count).  Inconsistent observations can put a cell
in both (see the counterexample). -/
theorem safes_mines_monotone_disjoint (M : Finset Cell) {ai : AIState}
    {c : Cell} {k : Int} (fuel : Nat) :
    (ai.safes ⊆ (addKnowledge fuel ai c k).safes ∧
      ai.mines ⊆ (addKnowledge fuel ai c k).mines) ∧
    (Sound M ai → c ∉ M → k = (((neighborsOf ai c) ∩ M).card : Int) →
      (addKnowledge fuel ai c k).safes ∩ (addKnowledge fuel ai c k).mines =
        ∅) := by
  refine ⟨⟨?_, addKnowledge_mines_mono fuel ai c k⟩, ?_⟩
  · exact (Finset.subset_insert c ai.safes).trans
      (addKnowledge_safes_mono fuel ai c k)
  · intro hs hc hk
    exact sound_disjoint (addKnowledge_sound fuel hs hc hk)

/-- Witness for the amended C4 at a concrete sound call. -/
theorem safes_mines_monotone_disjoint_witness :
    (addKnowledge 1 (initAI 2 2) (0, 0) 0).safes ∩
      (addKnowledge 1 (initAI 2 2) (0, 0) 0).mines = ∅ :=
  (safes_mines_monotone_disjoint ∅ 1).2 sound_empty_init (by decide)
    (by decide)

/-- **C5** counterexample.  `mark_mine` on a cell already in `safes` does
not fail or flag anything: after `mark_safe (0,1)` then `mark_mine (0,1)`
on a fresh agent, the cell sits silently in both sets. -/
theorem mark_contradiction_unflagged :
    (((initAI 2 2).mark_safe (0, 1)).mark_mine (0, 1)).safes = {(0, 1)} ∧
    (((initAI 2 2).mark_safe (0, 1)).mark_mine (0, 1)).mines = {(0, 1)} :=
  ⟨by decide, by decide⟩

/-- **C5** amended (proved).  `mark_mine` unconditionally inserts the cell
into `mines` and leaves `safes` untouched — there is no contradiction
check — and symmetrically for `mark_safe`. -/
theorem mark_ops_unchecked (ai : AIState) (c : Cell) :
    (ai.mark_mine c).mines = insert c ai.mines ∧
    (ai.mark_mine c).safes = ai.safes ∧
    (ai.mark_safe c).safes = insert c ai.safes ∧
    (ai.mark_safe c).mines = ai.mines :=
  ⟨rfl, rfl, rfl, rfl⟩

/-- **C6** counterexample.  A negative adjusted count is not fatal: the call
`add_knowledge (0,0) (-3)` on a fresh 2×2 agent silently appends the
sentence `{(0,1),(1,0),(1,1)} = -3`. -/
theorem negative_count_appended :
    (addKnowledge 5 (initAI 2 2) (0, 0) (-3)).knowledge =
      [⟨{(0, 1), (1, 0), (1, 1)}, -3⟩] ∧ (-3 : Int) < 0 :=
  ⟨by decide, by decide⟩

/-- **C6** amended (proved).  The adjusted count is not validated at all:
whenever the candidate neighbour set is non-empty, `add_knowledge` appends
the sentence `(candidates, adjusted count)` for every count value, negative
or exceeding the candidate size included. -/
theorem observation_count_unvalidated (ai : AIState) (c : Cell) (k : Int)
    (h : obsCandidates ai c ≠ ∅) :
    (obsPart ai c k).knowledge =
      ai.knowledge.map (·.mark_safe c) ++
        [⟨obsCandidates ai c, obsAdjusted ai c k⟩] := by
  rw [obsPart_knowledge, if_neg h]

/-- Witness for the amended C6 at a wildly negative count. -/
theorem observation_count_unvalidated_witness :
    (obsPart (initAI 2 2) (0, 0) (-7)).knowledge =
      (initAI 2 2).knowledge.map (·.mark_safe (0, 0)) ++
        [⟨obsCandidates (initAI 2 2) (0, 0),
          obsAdjusted (initAI 2 2) (0, 0) (-7)⟩] :=
  observation_count_unvalidated (initAI 2 2) (0, 0) (-7) (by decide)

/-- **C7** counterexample.  An out-of-bounds move request is not rejected
and the state is not left unchanged: `add_knowledge (5,5) 0` on a fresh 2×2
agent records `(5,5)` in `moves_made` and `safes` (all its neighbours are
clipped away, so no sentence is added). -/
theorem invalid_move_mutates :
    (addKnowledge 5 (initAI 2 2) (5, 5) 0).moves_made = {(5, 5)} ∧
    (addKnowledge 5 (initAI 2 2) (5, 5) 0).safes = {(5, 5)} ∧
    (addKnowledge 5 (initAI 2 2) (5, 5) 0).knowledge = [] :=
  ⟨by decide, by decide, by decide⟩

/-- **C7** amended (proved).  `add_knowledge` performs no validation of the
move request: for every state, cell and count — already-made and
out-of-bounds cells included — the call proceeds, adds the cell to
`moves_made` and marks it safe. -/
theorem add_knowledge_never_rejects (fuel : Nat) (ai : AIState) (c : Cell)
    (k : Int) :
    (addKnowledge fuel ai c k).moves_made = insert c ai.moves_made ∧
    c ∈ (addKnowledge fuel ai c k).safes :=
  ⟨addKnowledge_moves fuel ai c k,
    addKnowledge_safes_mono fuel ai c k (Finset.mem_insert_self c ai.safes)⟩

/-- **C8** (confirmed).  `make_random_move` returns none exactly when
`{all board cells} \ moves_made \ mines` is empty, and any returned cell
belongs to that set — in particular it is never in `moves_made` or in
`mines`. -/
theorem random_move_exclusion (ai : AIState) (seed : Nat) :
    ((make_random_move ai seed).1 = none ↔ randomChoices ai = ∅) ∧
    ∀ x : Cell, (make_random_move ai seed).1 = some x →
      x ∈ randomChoices ai ∧ x ∉ ai.moves_made ∧ x ∉ ai.mines := by
  have hfst : (make_random_move ai seed).1 =
      if h : (cellList (randomChoices ai)).length = 0 then none
      else some ((cellList (randomChoices ai)).get
        ⟨seed % (cellList (randomChoices ai)).length,
          Nat.mod_lt _ (Nat.pos_of_ne_zero h)⟩) := rfl
  by_cases hl : (cellList (randomChoices ai)).length = 0
  · have hempty : randomChoices ai = ∅ := by
      apply Finset.card_eq_zero.mp
      rw [← Finset.length_sort cellLe]
      exact hl
    rw [hfst, dif_pos hl]
    exact ⟨⟨fun _ => hempty, fun _ => rfl⟩,
      fun x hx => absurd hx (by simp)⟩
  · have hne : ¬ randomChoices ai = ∅ := by
      intro h0
      apply hl
      show ((randomChoices ai).sort cellLe).length = 0
      rw [h0, Finset.sort_empty]
      rfl
    rw [hfst, dif_neg hl]
    refine ⟨⟨fun h => absurd h (by simp), fun h => absurd h hne⟩, ?_⟩
    intro x hx
    have hget := Option.some.inj hx
    have hx' : x ∈ cellList (randomChoices ai) := by
      rw [← hget]
      exact List.get_mem _ _ _
    have hxr : x ∈ randomChoices ai := (Finset.mem_sort cellLe).mp hx'
    have h1 := Finset.mem_sdiff.mp hxr
    have h2 := Finset.mem_sdiff.mp h1.1
    exact ⟨hxr, h2.2, h1.2⟩

lemma make_random_of_singleton {ai : AIState} {a : Cell}
    (h : cellList (randomChoices ai) = [a]) (seed : Nat) :
    (make_random_move ai seed).1 = some a := by
  have hl : ¬ (cellList (randomChoices ai)).length = 0 := by
    rw [h]
    simp
  have hfst : (make_random_move ai seed).1 =
      if hc : (cellList (randomChoices ai)).length = 0 then none
      else some ((cellList (randomChoices ai)).get
        ⟨seed % (cellList (randomChoices ai)).length,
          Nat.mod_lt _ (Nat.pos_of_ne_zero hc)⟩) := rfl
  rw [hfst, dif_neg hl]
  congr 1
  rw [List.get_of_eq h]
  simp

/-- Witness for C8: on a fresh 1×1 agent (a single remaining cell, so the
listed order is forced) the returned cell is in the choice set and outside
`moves_made` and `mines`. -/
theorem random_move_exclusion_witness :
    (((0 : Int), (0 : Int)) : Cell) ∈ randomChoices (initAI 1 1) ∧
      (((0 : Int), (0 : Int)) : Cell) ∉ (initAI 1 1).moves_made ∧
      (((0 : Int), (0 : Int)) : Cell) ∉ (initAI 1 1).mines := by
  refine (random_move_exclusion (initAI 1 1) 0).2 (0, 0)
    (make_random_of_singleton ?_ 0)
  rw [show randomChoices (initAI 1 1) =
    ({((0 : Int), (0 : Int))} : Finset Cell) from by decide]
  exact Finset.sort_singleton cellLe ((0 : Int), (0 : Int))

/-- **C9** (confirmed).  Idempotence of the closure: at any state where a
pass reports `updated = false` (the loop's fixpoint), running the pass
again adds nothing to `safes` or `mines` and appends no sentence. -/
theorem closure_idempotent {ai : AIState} (h : updFlag ai = false) :
    (pass1 ai).safes = ai.safes ∧ (pass1 ai).mines = ai.mines ∧
    (pass1 ai).knowledge = ai.knowledge := by
  rw [pass_fix h]
  exact ⟨rfl, rfl, rfl⟩

/-- Witness for C9 at the (fixpoint) initial state. -/
theorem closure_idempotent_witness :
    updFlag (initAI 2 2) = false ∧
      ((pass1 (initAI 2 2)).safes = (initAI 2 2).safes ∧
        (pass1 (initAI 2 2)).mines = (initAI 2 2).mines ∧
        (pass1 (initAI 2 2)).knowledge = (initAI 2 2).knowledge) :=
  ⟨by decide, closure_idempotent (by decide)⟩

/-- **C10** (confirmed).  `make_safe_move` and `make_random_move` are
read-only queries: the state they leave behind is the receiver itself, so
`moves_made`, `safes`, `mines` and every sentence are unchanged. -/
theorem move_queries_readonly (ai : AIState) (seed : Nat) :
    (make_safe_move ai).2 = ai ∧ (make_random_move ai seed).2 = ai :=
  ⟨rfl, rfl⟩

end Minesweeper
